import Mathlib

/-!
Shallow embedding of the dense-matrix core of `src/libraries/math/include/Matrix.h`
(EMLL `math` namespace).

The C++ code templates over an arithmetic `ElementType`; we fix the element
type to `Int`, which models any exactly-representable arithmetic element type
(no claim depends on the particular element type).  A C++ matrix reference is a
raw pointer `_pData` into a contiguous buffer plus dimensions and a stored
stride; we model the buffer as a `List Int` together with a `base` offset, so
that the C++ pointer arithmetic `_pData + k` becomes `base + k`.

The C++ `Layout` template parameter (with one `MatrixBase` specialization per
layout, each storing a single non-unit stride: `_columnIncrement` for
column-major, `_rowIncrement` for row-major) is modelled as a runtime tag plus
one stored `increment` field, matching the specializations field for field.
-/

namespace math

/-- The two matrix layouts, from `enum class MatrixLayout`. -/
inductive MatrixLayout where
  | columnMajor
  | rowMajor
deriving DecidableEq, Repr

/-- A matrix reference: buffer, base offset of `_pData` into the buffer,
dimensions (`RectangularMatrixBase::_numRows/_numColumns`), layout tag, and the
stored non-unit stride (`_columnIncrement` of the column-major specialization,
`_rowIncrement` of the row-major one). -/
structure ConstMatrixReference where
  data : List Int
  base : Nat
  numRows : Nat
  numColumns : Nat
  layout : MatrixLayout
  increment : Nat
deriving DecidableEq, Repr

namespace ConstMatrixReference

/-- `MatrixBase::GetIndex`: column-major returns
`rowIndex + columnIndex * _columnIncrement`, row-major returns
`rowIndex * _rowIncrement + columnIndex` (Matrix.h lines 64-68 and 100-104). -/
def GetIndex (M : ConstMatrixReference) (rowIndex columnIndex : Nat) : Nat :=
  match M.layout with
  | .columnMajor => rowIndex + columnIndex * M.increment
  | .rowMajor => rowIndex * M.increment + columnIndex

/-- `MatrixBase::GetRowIncrement`: 1 for column-major, `_rowIncrement` for
row-major. -/
def GetRowIncrement (M : ConstMatrixReference) : Nat :=
  match M.layout with
  | .columnMajor => 1
  | .rowMajor => M.increment

/-- `MatrixBase::GetColumnIncrement`: `_columnIncrement` for column-major, 1 for
row-major. -/
def GetColumnIncrement (M : ConstMatrixReference) : Nat :=
  match M.layout with
  | .columnMajor => M.increment
  | .rowMajor => 1

/-- `ConstMatrixReference::operator()`: returns `_pData[GetIndex(row, col)]`
(Matrix.h lines 137-140).  Out-of-range reads are undefined behavior in C++;
the embedding returns the junk value 0 there, and every theorem about reads
carries the bounds needed to pin the value down. -/
def elem (M : ConstMatrixReference) (rowIndex columnIndex : Nat) : Int :=
  M.data.getD (M.base + M.GetIndex rowIndex columnIndex) 0

/-- `MatrixReference::operator()` used as an lvalue:
`_pData[GetIndex(row, col)] = v` (Matrix.h lines 190-193).  Only the buffer
cell at the computed offset changes; all other fields are untouched. -/
def setElem (M : ConstMatrixReference) (rowIndex columnIndex : Nat) (v : Int) :
    ConstMatrixReference :=
  { M with data := M.data.set (M.base + M.GetIndex rowIndex columnIndex) v }

/-- `ConstMatrixReference::GetBlock` (Matrix.h lines 150-154): a new reference
at `_pData + GetIndex(firstRow, firstColumn)` with the requested dimensions.
Modelled from the spec: the four-argument `ConstMatrixReference` constructor
invoked here and the `_increment` member it forwards are not in src/ (only this
caller is); per the spec the block view carries "the *same* strides as the
parent", so the constructor stores the parent's stored increment unchanged. -/
def GetBlock (M : ConstMatrixReference) (firstRow firstColumn numRows numColumns : Nat) :
    ConstMatrixReference :=
  { data := M.data
    base := M.base + M.GetIndex firstRow firstColumn
    numRows := numRows
    numColumns := numColumns
    layout := M.layout
    increment := M.increment }

/-- `MatrixReference::GetBlock` (Matrix.h lines 203-207): textually the same
body as the const version, returning a mutable reference. -/
def GetBlockMut (M : ConstMatrixReference) (firstRow firstColumn numRows numColumns : Nat) :
    ConstMatrixReference :=
  { data := M.data
    base := M.base + M.GetIndex firstRow firstColumn
    numRows := numRows
    numColumns := numColumns
    layout := M.layout
    increment := M.increment }

/-- `ConstMatrixReference::operator==` as written in the source (Matrix.h lines
163-172): after the dimension check it returns `true` unconditionally; the
element-comparison loop is absent. -/
def eqCode (M N : ConstMatrixReference) : Bool :=
  if M.numRows ≠ N.numRows ∨ M.numColumns ≠ N.numColumns then
    false
  else
    true

/-- Equality as the spec's section 4.2 states it (dimensions match and every
corresponding element compares equal), used where a claim invokes that
section's equality; to be compared with the source's stubbed `eqCode`. -/
def specEquals (M N : ConstMatrixReference) : Prop :=
  M.numRows = N.numRows ∧ M.numColumns = N.numColumns ∧
    ∀ i j, i < M.numRows → j < M.numColumns → M.elem i j = N.elem i j

end ConstMatrixReference

/-- Modelled from the spec: the companion vector abstraction lives in Vector.h,
which is not in src/.  Per the spec (sections 6 and 9) a vector view exposes an
element count, a strided access over a base pointer, and a default construction
yielding an "empty/default column view" with no addressable elements. -/
structure ConstVectorReference where
  data : List Int
  base : Nat
  size : Nat
  increment : Nat
deriving DecidableEq, Repr

/-- Modelled from the spec: the default-constructed `ConstVectorReference()` is
the empty/default view, referencing no elements. -/
def ConstVectorReference.defaultView : ConstVectorReference :=
  { data := [], base := 0, size := 0, increment := 1 }

namespace ConstMatrixReference

/-- `ConstMatrixReference::GetColumn` (Matrix.h lines 156-159): the body
ignores `index` and returns a default-constructed `ConstVectorReference`. -/
def GetColumn (M : ConstMatrixReference) (index : Nat) : ConstVectorReference :=
  ConstVectorReference.defaultView

end ConstMatrixReference

/-- The stride stored by the layout-specialized `MatrixBase(numRows, numColumns)`
constructor: `_columnIncrement = numRows` for column-major (Matrix.h line 61),
`_rowIncrement = numColumns` for row-major (Matrix.h line 97). -/
def incrementFor (layout : MatrixLayout) (numRows numColumns : Nat) : Nat :=
  match layout with
  | .columnMajor => numRows
  | .rowMajor => numColumns

/-- `Matrix::Matrix(numRows, numColumns)` (Matrix.h lines 227-230): dimensions
and stride from the `MatrixBase` constructor chain, backed by
`std::vector<ElementType>(numRows*numColumns)`, which value-initializes every
element to zero; `_pData` points at the buffer start (base offset 0). -/
def matrixOfDims (layout : MatrixLayout) (numRows numColumns : Nat) :
    ConstMatrixReference :=
  { data := List.replicate (numRows * numColumns) 0
    base := 0
    numRows := numRows
    numColumns := numColumns
    layout := layout
    increment := incrementFor layout numRows numColumns }

/-- The inner loop of the literal-list constructor (Matrix.h lines 241-246):
writes the elements of one row at `(i, j), (i, j+1), ...` through the mutable
element accessor. -/
def writeRowAux (M : ConstMatrixReference) (i : Nat) (row : List Int) (j : Nat) :
    ConstMatrixReference :=
  match row with
  | [] => M
  | v :: rest => writeRowAux (M.setElem i j v) i rest (j + 1)

/-- The outer loop of the literal-list constructor (Matrix.h lines 236-248):
writes the rows at `i = 0, 1, ...`, each starting at column 0. -/
def writeRowsAux (M : ConstMatrixReference) (rows : List (List Int)) (i : Nat) :
    ConstMatrixReference :=
  match rows with
  | [] => M
  | r :: rest => writeRowsAux (writeRowAux M i r 0) rest (i + 1)

/-- `Matrix::Matrix(std::initializer_list<std::initializer_list<ElementType>>)`
(Matrix.h lines 232-249): dimensions are `list.size()` and
`list.begin()->size()`, the buffer is `std::vector` of that product
(zero-initialized), and the nested loops copy the literal values in row-major
input order through `(*this)(i, j)`.  The commented-out row-length check is
absent: no validation is performed. -/
def matrixOfLiteral (layout : MatrixLayout) (rows : List (List Int)) :
    ConstMatrixReference :=
  writeRowsAux (matrixOfDims layout rows.length (rows.headD []).length) rows 0

end math

namespace math

open ConstMatrixReference

/-! ## Helper lemmas about list updates -/

theorem list_getD_set_self (l : List Int) (n : Nat) (a : Int) (h : n < l.length) :
    (l.set n a).getD n 0 = a := by
  rw [List.getD_eq_getElem _ _ (by simpa using h)]
  exact List.getElem_set_self (by simpa using h)

theorem list_getD_set_ne (l : List Int) (m n : Nat) (a : Int) (h : m ≠ n) :
    (l.set m a).getD n 0 = l.getD n 0 := by
  by_cases hn : n < l.length
  · rw [List.getD_eq_getElem _ _ (by simpa using hn), List.getD_eq_getElem _ _ hn]
    exact List.getElem_set_ne h _
  · rw [List.getD_eq_default _ _ (by simpa using Nat.le_of_not_lt hn),
      List.getD_eq_default _ _ (Nat.le_of_not_lt hn)]

/-! ## Arithmetic facts about the two offset formulas -/

theorem colMajor_offset_lt (nr nc r c : Nat) (hr : r < nr) (hc : c < nc) :
    r + c * nr < nr * nc := by
  calc r + c * nr = c * nr + r := Nat.add_comm _ _
    _ < c * nr + nr := Nat.add_lt_add_left hr _
    _ = (c + 1) * nr := by ring
    _ ≤ nc * nr := Nat.mul_le_mul_right _ hc
    _ = nr * nc := Nat.mul_comm _ _

theorem rowMajor_offset_lt (nr nc r c : Nat) (hr : r < nr) (hc : c < nc) :
    r * nc + c < nr * nc := by
  calc r * nc + c < r * nc + nc := Nat.add_lt_add_left hc _
    _ = (r + 1) * nc := by ring
    _ ≤ nr * nc := Nat.mul_le_mul_right _ hr

theorem colMajor_offset_inj (nr r c r' c' : Nat) (hr : r < nr) (hr' : r' < nr)
    (h : r + c * nr = r' + c' * nr) : r = r' ∧ c = c' := by
  have hnr : 0 < nr := Nat.lt_of_le_of_lt (Nat.zero_le r) hr
  have hmod : r = r' := by
    have h1 : (r + c * nr) % nr = (r' + c' * nr) % nr := by rw [h]
    rwa [Nat.add_mul_mod_self_right, Nat.add_mul_mod_self_right,
      Nat.mod_eq_of_lt hr, Nat.mod_eq_of_lt hr'] at h1
  refine ⟨hmod, ?_⟩
  subst hmod
  have h2 : c * nr = c' * nr := by omega
  exact Nat.eq_of_mul_eq_mul_right hnr h2

theorem rowMajor_offset_inj (nc r c r' c' : Nat) (hc : c < nc) (hc' : c' < nc)
    (h : r * nc + c = r' * nc + c') : r = r' ∧ c = c' := by
  have hnc : 0 < nc := Nat.lt_of_le_of_lt (Nat.zero_le c) hc
  have hmod : c = c' := by
    have h1 : (r * nc + c) % nc = (r' * nc + c') % nc := by rw [h]
    rw [Nat.mul_comm r nc, Nat.mul_comm r' nc] at h1
    rwa [Nat.mul_add_mod, Nat.mul_add_mod, Nat.mod_eq_of_lt hc,
      Nat.mod_eq_of_lt hc'] at h1
  refine ⟨?_, hmod⟩
  subst hmod
  have h2 : r * nc = r' * nc := by omega
  exact Nat.eq_of_mul_eq_mul_right hnc h2

/-- The offset of a freshly constructed matrix (own strides) is in range. -/
theorem GetIndex_matrixOfDims_lt (lay : MatrixLayout) (nr nc r c : Nat)
    (hr : r < nr) (hc : c < nc) :
    (matrixOfDims lay nr nc).GetIndex r c < nr * nc := by
  cases lay with
  | columnMajor => exact colMajor_offset_lt nr nc r c hr hc
  | rowMajor => exact rowMajor_offset_lt nr nc r c hr hc

/-- The offset of a freshly constructed matrix (own strides) is injective on
valid index pairs. -/
theorem GetIndex_matrixOfDims_inj (lay : MatrixLayout) (nr nc r c r' c' : Nat)
    (hr : r < nr) (hc : c < nc) (hr' : r' < nr) (hc' : c' < nc)
    (h : (matrixOfDims lay nr nc).GetIndex r c = (matrixOfDims lay nr nc).GetIndex r' c') :
    r = r' ∧ c = c' := by
  cases lay with
  | columnMajor => exact colMajor_offset_inj nr r c r' c' hr hr' h
  | rowMajor => exact rowMajor_offset_inj nc r c r' c' hc hc' h

/-! ## Invariants of the literal-constructor write loops -/

@[simp] theorem setElem_base (M : ConstMatrixReference) (r c : Nat) (v : Int) :
    (M.setElem r c v).base = M.base := rfl

@[simp] theorem setElem_numRows (M : ConstMatrixReference) (r c : Nat) (v : Int) :
    (M.setElem r c v).numRows = M.numRows := rfl

@[simp] theorem setElem_numColumns (M : ConstMatrixReference) (r c : Nat) (v : Int) :
    (M.setElem r c v).numColumns = M.numColumns := rfl

@[simp] theorem setElem_layout (M : ConstMatrixReference) (r c : Nat) (v : Int) :
    (M.setElem r c v).layout = M.layout := rfl

@[simp] theorem setElem_increment (M : ConstMatrixReference) (r c : Nat) (v : Int) :
    (M.setElem r c v).increment = M.increment := rfl

@[simp] theorem GetIndex_setElem (M : ConstMatrixReference) (r c : Nat) (v : Int)
    (a b : Nat) : (M.setElem r c v).GetIndex a b = M.GetIndex a b := rfl

@[simp] theorem setElem_data_length (M : ConstMatrixReference) (r c : Nat) (v : Int) :
    (M.setElem r c v).data.length = M.data.length := by
  simp [setElem]

theorem writeRowAux_fields (M : ConstMatrixReference) (i : Nat) (row : List Int)
    (j : Nat) :
    (writeRowAux M i row j).base = M.base ∧
    (writeRowAux M i row j).numRows = M.numRows ∧
    (writeRowAux M i row j).numColumns = M.numColumns ∧
    (writeRowAux M i row j).layout = M.layout ∧
    (writeRowAux M i row j).increment = M.increment ∧
    (writeRowAux M i row j).data.length = M.data.length := by
  induction row generalizing M j with
  | nil => simp [writeRowAux]
  | cons v rest ih =>
    have h := ih (M.setElem i j v) (j + 1)
    simpa [writeRowAux] using h

theorem writeRowsAux_fields (M : ConstMatrixReference) (rows : List (List Int))
    (i : Nat) :
    (writeRowsAux M rows i).base = M.base ∧
    (writeRowsAux M rows i).numRows = M.numRows ∧
    (writeRowsAux M rows i).numColumns = M.numColumns ∧
    (writeRowsAux M rows i).layout = M.layout ∧
    (writeRowsAux M rows i).increment = M.increment ∧
    (writeRowsAux M rows i).data.length = M.data.length := by
  induction rows generalizing M i with
  | nil => simp [writeRowsAux]
  | cons r rest ih =>
    simp only [writeRowsAux]
    obtain ⟨hb, hr2, hc2, hl, hinc, hd⟩ := ih (writeRowAux M i r 0) (i + 1)
    obtain ⟨hb', hr2', hc2', hl', hinc', hd'⟩ := writeRowAux_fields M i r 0
    exact ⟨hb.trans hb', hr2.trans hr2', hc2.trans hc2', hl.trans hl',
      hinc.trans hinc', hd.trans hd'⟩

/-- The offset map reads only the layout tag and the stored increment, both
untouched by the write loops. -/
theorem GetIndex_writeRowsAux (M : ConstMatrixReference) (rows : List (List Int))
    (i a b : Nat) : (writeRowsAux M rows i).GetIndex a b = M.GetIndex a b := by
  have h := writeRowsAux_fields M rows i
  unfold GetIndex
  rw [h.2.2.2.1, h.2.2.2.2.1]

/-- A buffer cell touched by none of one row's writes is unchanged by that
row's write loop. -/
theorem writeRowAux_getD_of_ne (M : ConstMatrixReference) (i : Nat)
    (row : List Int) (j k : Nat)
    (h : ∀ t, t < row.length → M.base + M.GetIndex i (j + t) ≠ k) :
    (writeRowAux M i row j).data.getD k 0 = M.data.getD k 0 := by
  induction row generalizing M j with
  | nil => simp [writeRowAux]
  | cons v rest ih =>
    rw [writeRowAux]
    have hstep := ih (M.setElem i j v) (j + 1) (by
      intro t ht
      have e : j + 1 + t = j + (t + 1) := by omega
      simp only [setElem_base, GetIndex_setElem, e]
      exact h (t + 1) (by simpa using Nat.succ_lt_succ ht))
    rw [hstep]
    have h0 : M.base + M.GetIndex i j ≠ k := by
      have := h 0 (by simp)
      simpa using this
    simp only [setElem]
    exact list_getD_set_ne _ _ _ _ h0

/-- After one row's write loop, the cell addressed for offset `j + t` holds the
row's `t`-th value, provided that address is in range and no later write of the
same row aliases it. -/
theorem writeRowAux_getD_of_hit (M : ConstMatrixReference) (i : Nat)
    (row : List Int) (j t : Nat) (ht : t < row.length)
    (hlen : M.base + M.GetIndex i (j + t) < M.data.length)
    (hne : ∀ s, s < row.length → s ≠ t →
      M.base + M.GetIndex i (j + s) ≠ M.base + M.GetIndex i (j + t)) :
    (writeRowAux M i row j).data.getD (M.base + M.GetIndex i (j + t)) 0 =
      row.getD t 0 := by
  induction row generalizing M j t with
  | nil => exact absurd ht (by simp)
  | cons v rest ih =>
    rw [writeRowAux]
    cases t with
    | zero =>
      have hmiss := writeRowAux_getD_of_ne (M.setElem i j v) i rest (j + 1)
        (M.base + M.GetIndex i (j + 0)) (by
          intro s hs
          have e : j + 1 + s = j + (s + 1) := by omega
          simp only [setElem_base, GetIndex_setElem, e]
          exact hne (s + 1) (by simpa using Nat.succ_lt_succ hs) (by omega))
      rw [hmiss]
      simp only [setElem, Nat.add_zero]
      simpa using list_getD_set_self M.data (M.base + M.GetIndex i j) v
        (by simpa using hlen)
    | succ u =>
      have e : j + (u + 1) = (j + 1) + u := by omega
      rw [e]
      have happ := ih (M.setElem i j v) (j + 1) u (by simpa using Nat.lt_of_succ_lt_succ ht)
        (by simp only [setElem_base, GetIndex_setElem, setElem_data_length]
            rw [← e]; exact hlen)
        (by intro s hs hsu
            simp only [setElem_base, GetIndex_setElem]
            have e1 : j + 1 + s = j + (s + 1) := by omega
            have e2 : j + 1 + u = j + (u + 1) := by omega
            rw [e1, e2]
            exact hne (s + 1) (by simpa using Nat.succ_lt_succ hs) (by omega))
      simpa using happ

/-- A buffer cell touched by none of the remaining rows' writes is unchanged by
the outer row loop. -/
theorem writeRowsAux_getD_of_ne (M : ConstMatrixReference)
    (rows : List (List Int)) (i k : Nat)
    (h : ∀ p j, p < rows.length → j < (rows.getD p []).length →
      M.base + M.GetIndex (i + p) j ≠ k) :
    (writeRowsAux M rows i).data.getD k 0 = M.data.getD k 0 := by
  induction rows generalizing M i with
  | nil => simp [writeRowsAux]
  | cons r rest ih =>
    rw [writeRowsAux]
    have hfields := writeRowAux_fields M i r 0
    have hstep := ih (writeRowAux M i r 0) (i + 1) (by
      intro p j hp hj
      have hGI : (writeRowAux M i r 0).GetIndex (i + 1 + p) j =
          M.GetIndex (i + 1 + p) j := by
        unfold GetIndex; rw [hfields.2.2.2.1, hfields.2.2.2.2.1]
      rw [hfields.1, hGI]
      have e : i + 1 + p = i + (p + 1) := by omega
      rw [e]
      exact h (p + 1) j (by simpa using Nat.succ_lt_succ hp) (by simpa using hj))
    rw [hstep]
    exact writeRowAux_getD_of_ne M i r 0 k (by
      intro t htl
      have := h 0 t (by simp) (by simpa using htl)
      simpa using this)

/-- After the outer row loop, the cell addressed for row `i + p`, column `j`
holds the `j`-th value of the `p`-th remaining row, provided the address is in
range and no other (row, column) write of the loop aliases it. -/
theorem writeRowsAux_getD_of_hit (M : ConstMatrixReference)
    (rows : List (List Int)) (i p j : Nat) (hp : p < rows.length)
    (hj : j < (rows.getD p []).length)
    (hlen : M.base + M.GetIndex (i + p) j < M.data.length)
    (hdist : ∀ p' j', p' < rows.length → j' < (rows.getD p' []).length →
      ¬(p' = p ∧ j' = j) →
      M.base + M.GetIndex (i + p') j' ≠ M.base + M.GetIndex (i + p) j) :
    (writeRowsAux M rows i).data.getD (M.base + M.GetIndex (i + p) j) 0 =
      (rows.getD p []).getD j 0 := by
  induction rows generalizing M i p with
  | nil => exact absurd hp (by simp)
  | cons r rest ih =>
    rw [writeRowsAux]
    have hfields := writeRowAux_fields M i r 0
    have hGIall : ∀ a b, (writeRowAux M i r 0).GetIndex a b = M.GetIndex a b := by
      intro a b; unfold GetIndex; rw [hfields.2.2.2.1, hfields.2.2.2.2.1]
    cases p with
    | zero =>
      have hmiss := writeRowsAux_getD_of_ne (writeRowAux M i r 0) rest (i + 1)
        (M.base + M.GetIndex (i + 0) j) (by
          intro q j' hq hj'
          rw [hfields.1, hGIall]
          have e : i + 1 + q = i + (q + 1) := by omega
          rw [e]
          exact hdist (q + 1) j' (by simpa using Nat.succ_lt_succ hq)
            (by simpa using hj') (by omega))
      rw [hmiss]
      have hhit := writeRowAux_getD_of_hit M i r 0 j (by simpa using hj)
        (by simpa using hlen)
        (by intro s hs hsj
            simp only [Nat.zero_add]
            exact hdist 0 s (by simp) (by simpa using hs) (by omega))
      simp only [Nat.zero_add] at hhit
      simp only [Nat.add_zero]
      rw [hhit]
      simp
    | succ q =>
      have happ := ih (writeRowAux M i r 0) (i + 1) q (by simpa using Nat.lt_of_succ_lt_succ hp)
        (by simpa using hj)
        (by rw [hfields.1, hGIall, hfields.2.2.2.2.2]
            have e : i + 1 + q = i + (q + 1) := by omega
            rw [e]; exact hlen)
        (by intro p' j' hp' hj' hnot
            rw [hfields.1, hGIall, hGIall]
            have e1 : i + 1 + p' = i + (p' + 1) := by omega
            have e2 : i + 1 + q = i + (q + 1) := by omega
            rw [e1, e2]
            exact hdist (p' + 1) j' (by simpa using Nat.succ_lt_succ hp')
              (by simpa using hj') (by omega))
      rw [hfields.1, hGIall] at happ
      have e : i + 1 + q = i + (q + 1) := by omega
      rw [e] at happ
      rw [happ]
      simp

/-! ## Claim theorems -/

/-- Claim C1: for a column-major matrix of shape `(numRows, numColumns)` the
index mapping satisfies `offset(r,c) = r + c*numRows`, and for a row-major one
`offset(r,c) = r*numColumns + c`, the non-unit increment being initialized from
the matrix's own dimensions at construction. -/
theorem offset_formula_matches_layout (nr nc r c : Nat) :
    (matrixOfDims .columnMajor nr nc).GetIndex r c = r + c * nr ∧
    (matrixOfDims .rowMajor nr nc).GetIndex r c = r * nc + c :=
  ⟨rfl, rfl⟩

/-- Claim C2: for a non-block matrix of shape `(nr, nc)` and either layout, the
offset function on valid index pairs stays in `[0, nr*nc)` and is injective. -/
theorem offset_injective_and_in_range (lay : MatrixLayout) (nr nc r c r' c' : Nat)
    (hr : r < nr) (hc : c < nc) (hr' : r' < nr) (hc' : c' < nc) :
    (matrixOfDims lay nr nc).GetIndex r c < nr * nc ∧
    ((matrixOfDims lay nr nc).GetIndex r c = (matrixOfDims lay nr nc).GetIndex r' c' →
      r = r' ∧ c = c') :=
  ⟨GetIndex_matrixOfDims_lt lay nr nc r c hr hc,
   fun h => GetIndex_matrixOfDims_inj lay nr nc r c r' c' hr hc hr' hc' h⟩

/-- Witness for claim C2 at a concrete shape and index pairs. -/
theorem offset_injective_and_in_range_witness :
    ((1 : Nat) < 2 ∧ (2 : Nat) < 3 ∧ (0 : Nat) < 2 ∧ (1 : Nat) < 3) ∧
    ((matrixOfDims .rowMajor 2 3).GetIndex 1 2 < 2 * 3 ∧
     ((matrixOfDims .rowMajor 2 3).GetIndex 1 2 = (matrixOfDims .rowMajor 2 3).GetIndex 0 1 →
       1 = 0 ∧ 2 = 1)) :=
  ⟨by decide,
   offset_injective_and_in_range .rowMajor 2 3 1 2 0 1 (by decide) (by decide)
     (by decide) (by decide)⟩

/-- Claim C3 (code-bug evidence): the source's `operator==` returns `true` for
two same-dimensioned matrices that differ in an element, because the
element-comparison loop is absent; the claim requires them to compare unequal. -/
theorem eqCode_ignores_element_mismatch :
    (matrixOfLiteral .rowMajor [[1]]).numRows = (matrixOfLiteral .rowMajor [[2]]).numRows ∧
    (matrixOfLiteral .rowMajor [[1]]).numColumns = (matrixOfLiteral .rowMajor [[2]]).numColumns ∧
    (matrixOfLiteral .rowMajor [[1]]).elem 0 0 ≠ (matrixOfLiteral .rowMajor [[2]]).elem 0 0 ∧
    eqCode (matrixOfLiteral .rowMajor [[1]]) (matrixOfLiteral .rowMajor [[2]]) = true := by
  decide

/-- Claim C4 (code-bug evidence): the source's `GetColumn` ignores its index
argument and returns the default-constructed (empty) vector view, so on the
2x3 matrix from `[[1,2,3],[4,5,6]]` the column-0 view has 0 elements instead
of the claimed length `numRows = 2` with contents `[1, 4]`. -/
theorem getColumn_yields_default_empty_view :
    ((matrixOfLiteral .rowMajor [[1,2,3],[4,5,6]]).GetColumn 0).size = 0 ∧
    (matrixOfLiteral .rowMajor [[1,2,3],[4,5,6]]).numRows = 2 ∧
    (matrixOfLiteral .rowMajor [[1,2,3],[4,5,6]]).GetColumn 0 =
      ConstVectorReference.defaultView := by
  decide

/-- Claim C5 (code-bug evidence): the literal constructor performs no
row-length validation (the check exists only as a comment), so the malformed
literal `[[1,2],[3]]` silently produces a 2x2 matrix (missing entry left at
its zero initialization) instead of reporting `MalformedLiteral`. -/
theorem literal_ctor_skips_row_length_check :
    (matrixOfLiteral .rowMajor [[1,2],[3]]).numRows = 2 ∧
    (matrixOfLiteral .rowMajor [[1,2],[3]]).numColumns = 2 ∧
    (matrixOfLiteral .rowMajor [[1,2],[3]]).data = [1, 2, 3, 0] := by
  decide

/-- Claim C6: an in-range block view inherits the parent's row and column
increments unchanged, and its `element(i,j)` equals the parent's
`element(firstRow+i, firstColumn+j)`, for both the read-only and the mutable
block extraction. -/
theorem block_inherits_strides_and_elements (M : ConstMatrixReference)
    (firstRow firstColumn blockRows blockCols i j : Nat)
    (hrows : firstRow + blockRows ≤ M.numRows)
    (hcols : firstColumn + blockCols ≤ M.numColumns)
    (hi : i < blockRows) (hj : j < blockCols) :
    ((M.GetBlock firstRow firstColumn blockRows blockCols).GetRowIncrement =
        M.GetRowIncrement ∧
     (M.GetBlock firstRow firstColumn blockRows blockCols).GetColumnIncrement =
        M.GetColumnIncrement ∧
     (M.GetBlock firstRow firstColumn blockRows blockCols).elem i j =
        M.elem (firstRow + i) (firstColumn + j)) ∧
    ((M.GetBlockMut firstRow firstColumn blockRows blockCols).GetRowIncrement =
        M.GetRowIncrement ∧
     (M.GetBlockMut firstRow firstColumn blockRows blockCols).GetColumnIncrement =
        M.GetColumnIncrement ∧
     (M.GetBlockMut firstRow firstColumn blockRows blockCols).elem i j =
        M.elem (firstRow + i) (firstColumn + j)) := by
  obtain ⟨data, base, nR, nC, lay, inc⟩ := M
  cases lay <;>
    refine ⟨⟨rfl, rfl, ?_⟩, ⟨rfl, rfl, ?_⟩⟩ <;>
    · simp only [elem, GetBlock, GetBlockMut, GetIndex]
      congr 1
      ring

/-- Witness for claim C6 at a concrete matrix and block. -/
theorem block_inherits_strides_and_elements_witness :
    ((1 : Nat) + 1 ≤ (matrixOfLiteral .rowMajor [[1,2,3],[4,5,6]]).numRows ∧
     (1 : Nat) + 2 ≤ (matrixOfLiteral .rowMajor [[1,2,3],[4,5,6]]).numColumns) ∧
    ((matrixOfLiteral .rowMajor [[1,2,3],[4,5,6]]).GetBlock 1 1 1 2).elem 0 1 = 6 ∧
    ((matrixOfLiteral .rowMajor [[1,2,3],[4,5,6]]).GetBlock 1 1 1 2).GetRowIncrement = 3 ∧
    ((matrixOfLiteral .rowMajor [[1,2,3],[4,5,6]]).GetBlockMut 1 1 1 2).elem 0 1 = 6 := by
  have h := block_inherits_strides_and_elements
    (matrixOfLiteral .rowMajor [[1,2,3],[4,5,6]]) 1 1 1 2 0 1
    (by decide) (by decide) (by decide) (by decide)
  refine ⟨by decide, ?_, ?_, ?_⟩
  · rw [h.1.2.2]; decide
  · rw [h.1.1]; decide
  · rw [h.2.2.2]; decide

/-- Claim C7: the view returned by `block(0, 0, numRows, numColumns)` is equal
to the original matrix under the element-wise equality of the spec's section
4.2 (dimensions match and every corresponding element compares equal). -/
theorem full_block_equals_original (M : ConstMatrixReference) :
    specEquals (M.GetBlock 0 0 M.numRows M.numColumns) M := by
  obtain ⟨data, base, nR, nC, lay, inc⟩ := M
  cases lay <;>
    refine ⟨rfl, rfl, fun i j hi hj => ?_⟩ <;>
    · simp only [elem, GetBlock, GetIndex]
      congr 1
      ring

/-- Claim C9: the dimensioned constructor allocates a contiguous buffer of
exactly `nr*nc` elements, all zero-initialized, so every valid element reads 0,
for either layout. -/
theorem dimensioned_ctor_zero_buffer (lay : MatrixLayout) (nr nc r c : Nat)
    (hr : r < nr) (hc : c < nc) :
    (matrixOfDims lay nr nc).data.length = nr * nc ∧
    (matrixOfDims lay nr nc).elem r c = 0 := by
  constructor
  · simp [matrixOfDims]
  · have hlt : (matrixOfDims lay nr nc).GetIndex r c < nr * nc :=
      GetIndex_matrixOfDims_lt lay nr nc r c hr hc
    have hbase : (matrixOfDims lay nr nc).base = 0 := rfl
    simp only [elem, hbase, Nat.zero_add]
    rw [List.getD_eq_getElem _ _ (by simpa [matrixOfDims] using hlt)]
    simp [matrixOfDims]

/-- Witness for claim C9 at the spec's 3x3 column-major zero matrix. -/
theorem dimensioned_ctor_zero_buffer_witness :
    ((1 : Nat) < 3 ∧ (1 : Nat) < 3) ∧
    (matrixOfDims .columnMajor 3 3).data.length = 3 * 3 ∧
    (matrixOfDims .columnMajor 3 3).elem 1 1 = 0 :=
  ⟨by decide, dimensioned_ctor_zero_buffer .columnMajor 3 3 1 1 (by decide) (by decide)⟩

/-- Claim C10: writing through the mutable element accessor changes only the
buffer cell at `offset(row, col)`: dimensions, layout and both strides are
unchanged, every element whose offset differs is unchanged, every buffer cell
other than the written one is unchanged, and an immediate read of
`element(row, col)` returns the written value. -/
theorem setElem_frame (M : ConstMatrixReference) (r c : Nat) (v : Int)
    (h : M.base + M.GetIndex r c < M.data.length) :
    (M.setElem r c v).numRows = M.numRows ∧
    (M.setElem r c v).numColumns = M.numColumns ∧
    (M.setElem r c v).layout = M.layout ∧
    (M.setElem r c v).GetRowIncrement = M.GetRowIncrement ∧
    (M.setElem r c v).GetColumnIncrement = M.GetColumnIncrement ∧
    (M.setElem r c v).elem r c = v ∧
    (∀ i j, M.GetIndex i j ≠ M.GetIndex r c → (M.setElem r c v).elem i j = M.elem i j) ∧
    (∀ k, k ≠ M.base + M.GetIndex r c →
      (M.setElem r c v).data.getD k 0 = M.data.getD k 0) := by
  refine ⟨rfl, rfl, rfl, rfl, rfl, ?_, ?_, ?_⟩
  · simp only [elem, setElem_base, GetIndex_setElem]
    exact list_getD_set_self _ _ _ h
  · intro i j hij
    simp only [elem, setElem_base, GetIndex_setElem]
    exact list_getD_set_ne _ _ _ _
      (fun he => hij (Nat.add_left_cancel he).symm)
  · intro k hk
    exact list_getD_set_ne _ _ _ _ (fun he => hk he.symm)

/-- Witness for claim C10, the spec's scenario: mutate `element(1,1) = 5` of a
3x3 column-major zero matrix; the written cell reads back 5 and another cell
is unchanged. -/
theorem setElem_frame_witness :
    ((matrixOfDims .columnMajor 3 3).base +
      (matrixOfDims .columnMajor 3 3).GetIndex 1 1 <
      (matrixOfDims .columnMajor 3 3).data.length) ∧
    ((matrixOfDims .columnMajor 3 3).setElem 1 1 5).elem 1 1 = 5 ∧
    ((matrixOfDims .columnMajor 3 3).setElem 1 1 5).elem 0 2 =
      (matrixOfDims .columnMajor 3 3).elem 0 2 := by
  have h := setElem_frame (matrixOfDims .columnMajor 3 3) 1 1 5 (by decide)
  exact ⟨by decide, h.2.2.2.2.2.1, h.2.2.2.2.2.2.1 0 2 (by decide)⟩

/-- Claim C8: a well-formed nested literal (all inner rows of the first row's
length) yields, for either layout, a matrix with `numRows` the number of inner
rows, `numColumns` the first row's length, and `element(i, j)` the `j`-th value
of the `i`-th inner row. -/
theorem literal_construction_reads_back (lay : MatrixLayout)
    (rows : List (List Int))
    (hwf : ∀ r ∈ rows, r.length = (rows.headD []).length)
    (i j : Nat) (hi : i < rows.length) (hj : j < (rows.headD []).length) :
    (matrixOfLiteral lay rows).numRows = rows.length ∧
    (matrixOfLiteral lay rows).numColumns = (rows.headD []).length ∧
    (matrixOfLiteral lay rows).elem i j = (rows.getD i []).getD j 0 := by
  have hfields := writeRowsAux_fields
    (matrixOfDims lay rows.length (rows.headD []).length) rows 0
  have hrowlen : ∀ p, p < rows.length →
      (rows.getD p []).length = (rows.headD []).length := by
    intro p hp
    rw [List.getD_eq_getElem _ _ hp]
    exact hwf _ (List.getElem_mem hp)
  refine ⟨hfields.2.1, hfields.2.2.1, ?_⟩
  show (writeRowsAux (matrixOfDims lay rows.length (rows.headD []).length) rows 0).elem i j = _
  simp only [elem]
  rw [hfields.1, GetIndex_writeRowsAux]
  have hhit := writeRowsAux_getD_of_hit
    (matrixOfDims lay rows.length (rows.headD []).length) rows 0 i j hi
    (by rw [hrowlen i hi]; exact hj)
    (by show 0 + _ < (List.replicate (rows.length * (rows.headD []).length) (0 : Int)).length
        rw [Nat.zero_add, List.length_replicate]
        have e : (0 : Nat) + i = i := Nat.zero_add i
        rw [e]
        exact GetIndex_matrixOfDims_lt lay rows.length (rows.headD []).length i j hi hj)
    (by intro p' j' hp' hj' hnot heq
        have e1 : (0 : Nat) + p' = p' := Nat.zero_add p'
        have e2 : (0 : Nat) + i = i := Nat.zero_add i
        rw [e1, e2] at heq
        have heq' := Nat.add_left_cancel heq
        have hj'nc : j' < (rows.headD []).length := by
          rw [← hrowlen p' hp']; exact hj'
        have hcontr := GetIndex_matrixOfDims_inj lay rows.length
          (rows.headD []).length p' j' i j hp' hj'nc hi hj heq'
        exact hnot ⟨hcontr.1, hcontr.2⟩)
  have e : (0 : Nat) + i = i := Nat.zero_add i
  rw [e] at hhit
  exact hhit

/-- Witness for claim C8: the spec's 2x3 example, built column-major from the
row-ordered literal `[[1,2,3],[4,5,6]]`, reads `element(1,2) = 6`. -/
theorem literal_construction_reads_back_witness :
    (matrixOfLiteral .columnMajor [[1,2,3],[4,5,6]]).numRows = 2 ∧
    (matrixOfLiteral .columnMajor [[1,2,3],[4,5,6]]).numColumns = 3 ∧
    (matrixOfLiteral .columnMajor [[1,2,3],[4,5,6]]).elem 1 2 = 6 := by
  have h := literal_construction_reads_back .columnMajor [[1,2,3],[4,5,6]]
    (by decide) 1 2 (by decide) (by decide)
  exact ⟨by rw [h.1]; decide, by rw [h.2.1]; decide, by rw [h.2.2]; decide⟩

end math
